import Mathlib

/-!
Verification of the durable-state / change-detection core of the repository:
the filesystem key-value persistence backend
(`src/persistence/backends/file.rs`) and the filesystem scanner
(`src/connectors/scanner/filesystem.rs`).

The Rust code is shallowly embedded: paths are lists of components or plain
strings of characters, the filesystem is an explicit oracle (a function from
paths to metadata results / glob results), and the effectful bodies of
`put_value`, `new`, `remove_key` are embedded as the list of filesystem
operations the straight-line Rust code issues, in order.  Any I/O failure in
the Rust code aborts the remaining operations of such a trace; it never adds
operations, so properties of the full trace (which paths are targeted, with
which contents, and in which order) hold a fortiori for every
failure-truncated prefix.

The `cfg(windows)` branches of the Rust file are not modelled: they perform
the same path computations and the same write-temp-then-rename sequence
through tokio, and the claims under study concern the path computations and
the ordering shared by both branches.
-/

namespace Pathway

/-! ## Rust `std::path` file-name primitives

`FilesystemKVStorage::put_value` computes its temporary path with
`Path::with_extension`, which operates on the last path component (the file
name).  We embed `split_file_at_dot`, `file_stem` / `extension` and
`set_extension` exactly as Rust's `std::path` defines them on a file name.
-/

/-- Split a file name at its LAST dot: `some (before, after)` with
`name = before ++ "." ++ after`, or `none` when the name has no dot.
Mirrors the `rsplitn(2, '.')` step of Rust's `split_file_at_dot`. -/
def splitLastDot : List Char → Option (List Char × List Char)
  | [] => none
  | c :: rest =>
    match splitLastDot rest with
    | some (b, a) => some (c :: b, a)
    | none => if c = '.' then some ([], rest) else none

/-- Rust `split_file_at_dot`, packaged as `(file_stem, extension)`: the name
`".."` and names whose part before the last dot is empty have no extension. -/
def fileStemExt (f : String) : String × Option String :=
  if f.data = "..".data then (f, none)
  else
    match splitLastDot f.data with
    | none => (f, none)
    | some (b, a) => if b = [] then (f, none) else (String.mk b, some (String.mk a))

/-- Rust `Path::set_extension` restricted to a file name: truncate to the
stem, then append `"." ++ ext` when `ext` is nonempty. -/
def setExtName (f ext : String) : String :=
  if ext = "" then (fileStemExt f).1 else (fileStemExt f).1 ++ "." ++ ext

/-- The temporary file name computed by `FilesystemKVStorage::put_value`:
`with_extension` applied to
`extension.map(|ext| format!("{ext}.tmp")).unwrap_or(".tmp".to_string())`,
where `TEMPORARY_OBJECT_SUFFIX = ".tmp"`. -/
def tmpFileName (f : String) : String :=
  match (fileStemExt f).2 with
  | some ext => setExtName f (ext ++ ".tmp")
  | none => setExtName f ".tmp"


/-! ## Paths of the KV backend

A platform path is a list of components (Rust `PathBuf` via `join`).
`key_to_path` splits the logical key on `'/'` and skips empty components.
-/

/-- Rust `str::split('/')` on the character list of a key. -/
def splitSlash : List Char → List (List Char)
  | [] => [[]]
  | c :: rest =>
    match splitSlash rest with
    | [] => [[c]]
    | h :: t => if c = '/' then [] :: h :: t else (c :: h) :: t


/-- The nonempty components of a key, in order: `FilesystemKVStorage::key_to_path`
keeps exactly the components for which `!component.is_empty()`. -/
def keyComponents (key : String) : List String :=
  ((splitSlash key.data).filter (fun l => l ≠ [])).map String.mk

/-- `FilesystemKVStorage::key_to_path`: start from the root path and `join`
every nonempty `'/'`-separated component of the key. -/
def keyToPath (root : List String) (key : String) : List String :=
  root ++ keyComponents key


/-- `final_path.with_extension(…)` at path level: Rust `with_extension`
rewrites the file name, i.e. the last component, and leaves the directory
untouched.  (For a last component `"."` or `".."` Rust's `file_name()` is
`None` and `with_extension` would leave the path unchanged; the claims are
settled for paths whose last component is an ordinary file name.) -/
def tmpPathOf (p : List String) : List String :=
  match p with
  | [] => []
  | f :: rest => if rest = [] then [tmpFileName f] else f :: tmpPathOf rest


/-- The filesystem operations issued by the backend, in program order. -/
inductive FsOp where
  /-- `ensure_directory(parent)` -/
  | mkdirs (p : List String)
  /-- `File::create(temp)` followed by `write_all(value)`: the full value is
  written to `p`. -/
  | writeAll (p : List String) (value : List Nat)
  /-- `std::fs::rename(src, dst)` -/
  | rename (src dst : List String)
  /-- `std::fs::remove_file(p)` -/
  | removeFile (p : List String)
deriving DecidableEq, Repr

/-- The operation sequence of `FilesystemKVStorage::put_value(key, value)`
followed by `write_file(tmp_path, final_path, value)`: ensure the parent
directory exists, write the full value to the temporary path, rename the
temporary path onto the final path. -/
def putValueTrace (root : List String) (key : String) (value : List Nat) : List FsOp :=
  let final := keyToPath root key
  let tmp := tmpPathOf final
  (if final = [] then [] else [FsOp.mkdirs final.dropLast])
    ++ [FsOp.writeAll tmp value, FsOp.rename tmp final]

/-- `FilesystemKVStorage::get_value`: `std::fs::read(key_to_path(key))`,
with the filesystem's read behaviour supplied as an oracle. -/
def getValueRes (readFn : List String → Option (List Nat)) (root : List String)
    (key : String) : Option (List Nat) :=
  readFn (keyToPath root key)

/-- The operation sequence of `FilesystemKVStorage::remove_key`. -/
def removeKeyTrace (root : List String) (key : String) : List FsOp :=
  [FsOp.removeFile (keyToPath root key)]

/-! ## `FilesystemKVStorage::list_keys` and `::new`

`list_keys` enumerates the glob `"<root>/**/*"`; here that enumeration is
the oracle input, a list of directory entries.  Entry paths are strings with
`'/'` or `'\\'` separators; a non-UTF-8 path is an entry whose `to_str()`
is `none`.
-/

/-- The error type of the persistence backend (`persistence::Error`), for
the variants the embedded code can produce. -/
inductive PersistError where
  /-- `Error::PathIsNotUtf8` -/
  | pathIsNotUtf8
  /-- `Error::Glob(…)`: a malformed glob pattern -/
  | globErr
  /-- `Error::Io(…)` -/
  | ioErr
deriving DecidableEq, Repr

/-- One result of iterating `glob::glob("<root>/**/*")`. -/
structure DirEntry where
  /-- `entry.to_str()`: `none` models a non-UTF-8 path. -/
  pathStr : Option String
  /-- `entry.is_file()` -/
  isFile : Bool
deriving DecidableEq, Repr

/-- Rust `str::ends_with(".tmp")` (`TEMPORARY_OBJECT_SUFFIX`). -/
def endsWithTmpSuffix (s : String) : Bool :=
  ".tmp".data.isSuffixOf s.data

/-- Rust `str::replace('\\', "/")`, a single-character replacement. -/
def normalizeSep (s : String) : String :=
  String.mk (s.data.map (fun c => if c = '\\' then '/' else c))

/-- `entry.strip_prefix(&self.root_path)` followed by `to_str()`, on
string-represented paths: drop the leading `root ++ "/"`. -/
def stripRootDir (root p : String) : Option String :=
  if (root ++ "/").data.isPrefixOf p.data then
    some (String.mk (p.data.drop (root.data.length + 1)))
  else none

/-- The loop body of `FilesystemKVStorage::list_keys` over the glob results:
skip non-files, skip non-UTF-8 paths with a warning, skip paths bearing the
temporary suffix, fail if the root cannot be stripped, otherwise push the
separator-normalized relative path. -/
def listKeysRun (root : String) : List DirEntry → Except PersistError (List String)
  | [] => .ok []
  | e :: rest =>
    if e.isFile then
      match e.pathStr with
      | some s =>
        if endsWithTmpSuffix s then listKeysRun root rest
        else
          match stripRootDir root s with
          | none => .error .ioErr
          | some rel =>
            match listKeysRun root rest with
            | .error err => .error err
            | .ok ks => .ok (normalizeSep rel :: ks)
      | none => listKeysRun root rest
    else listKeysRun root rest


/-- The directory-creating side effects of `FilesystemKVStorage::new`. -/
inductive NewEffect where
  /-- `ensure_directory(root_path)` -/
  | ensureDirectory (path : String)
deriving DecidableEq, Repr

/-- The fields of a constructed `FilesystemKVStorage`. -/
structure KVStorageModel where
  root_path : String
  root_glob_pattern : String
  path_prefix_len : Nat
deriving DecidableEq, Repr

/-- `FilesystemKVStorage::new(root_path)`.  `rootStr` is
`root_path.to_str()` (`none` for a non-UTF-8 path); `patternOk` is the
oracle for `GlobPattern::new` succeeding on a pattern string; `ensureDirOk`
is the oracle for `ensure_directory(root_path)` succeeding.  Returns the
construction result together with the side effects issued on the way. -/
def fsNew (rootStr : Option String) (patternOk : String → Bool) (ensureDirOk : Bool) :
    Except PersistError KVStorageModel × List NewEffect :=
  match rootStr with
  | none => (.error .pathIsNotUtf8, [])
  | some s =>
    let pattern := normalizeSep s ++ "/**/*"
    if patternOk pattern then
      if ensureDirOk then
        (.ok ⟨s, pattern, s.utf8ByteSize + 1⟩, [.ensureDirectory s])
      else (.error .ioErr, [.ensureDirectory s])
    else (.error .globErr, [])

/-! ## The filesystem scanner

`src/connectors/scanner/filesystem.rs`.  Object keys are the byte encoding
of paths; on unix `path_from_bytes` / `path_to_bytes` are mutually inverse,
so keys and paths are identified here and both are strings.  The metadata
type `FileLikeMetadata` and its `is_changed` predicate live in
`src/connectors/metadata.rs`, outside the provided sources; the scanner only
ever applies `is_changed` and compares nothing else, so the metadata type
`M` and the predicate `isChanged` are parameters of the embedding.
-/

/-- The kind of a `std::io::Error`, split as the scanner splits it. -/
inductive ErrKind where
  /-- `std::io::ErrorKind::NotFound` -/
  | notFound
  /-- any other kind, tagged by a code -/
  | other (code : Nat)
deriving DecidableEq, Repr

/-- `connectors::ReadError`, for the variants the embedded code can produce. -/
inductive ReadError where
  /-- `ReadError::Io(e)` -/
  | ioErr (kind : ErrKind)
  /-- `ReadError::Glob(…)`: a malformed glob pattern -/
  | globErr
deriving DecidableEq, Repr

/-- The result of `std::fs::metadata(path)`, with the successful metadata
already converted by `FileLikeMetadata::from_fs_meta`. -/
inductive MetaResult (M : Type) where
  | ok (m : M)
  | err (kind : ErrKind)
deriving DecidableEq, Repr

/-- One result of iterating a glob pattern in the scanner. -/
structure GlobEntry where
  /-- the path, as bytes (identified with a string) -/
  path : String
  /-- whether `entry.to_str()` succeeds (UTF-8 representable) -/
  isUnicode : Bool
  /-- `entry.is_file()` -/
  isFile : Bool
deriving DecidableEq, Repr

/-- The filesystem as the scanner observes it: a metadata oracle and a glob
oracle (`glob::glob(pattern)`, already flattened over per-entry errors;
the `Except` is the pattern error of the `glob` call itself). -/
structure ScannerFs (M : Type) where
  metadata : String → MetaResult M
  glob : String → Except ReadError (List GlobEntry)

/-- The `FilesystemScanner` configuration: the root glob pattern (stored as
a `GlobPattern`, used through `as_str()`) and the object pattern. -/
structure FilesystemScanner where
  path : String
  object_pattern : String
deriving DecidableEq, Repr

/-- `persistence::cached_object_storage::CachedObjectStorage`, through the
interface the scanner uses: `get_iter()` yields the entries in order and
`contains_object` is key membership.  The real store is a map, so its key
list is duplicate-free; theorems that need that take it as a hypothesis. -/
structure CachedObjectStorage (M : Type) where
  entries : List (String × M)

/-- `CachedObjectStorage::contains_object`. -/
def containsObject {M : Type} (st : CachedObjectStorage M) (k : String) : Bool :=
  st.entries.any (fun e => e.1 = k)

/-- `connectors::scanner::QueuedAction`, with the payloads the filesystem
scanner constructs. -/
inductive QueuedAction (M : Type) where
  | read (key : String) (m : M)
  | update (key : String) (m : M)
  | delete (key : String)
deriving DecidableEq, Repr

/-- The key of an action. -/
def QueuedAction.key {M : Type} : QueuedAction M → String
  | .read k _ => k
  | .update k _ => k
  | .delete k => k

/-- Whether an action is a `Read`. -/
def QueuedAction.isReadAction {M : Type} : QueuedAction M → Bool
  | .read _ _ => true
  | _ => false

/-- `FilesystemScanner::object_metadata` (the `PosixLikeScanner` impl):
`Ok(Some)` on success, `Ok(None)` on `NotFound`, `Err(Io)` otherwise. -/
def objectMetadata {M : Type} (fs : ScannerFs M) (objectPath : String) :
    Except ReadError (Option M) :=
  match fs.metadata objectPath with
  | .ok m => .ok (some m)
  | .err kind => if kind = .notFound then .ok none else .error (.ioErr kind)

/-- The loop body of `new_deletion_and_replacement_actions` for one cached
entry `(key, stored)`: `Delete` on `NotFound`, `Update` when
`stored.is_changed(actual)`, nothing otherwise — any other lookup error
also produces nothing. -/
def deletionActionFor {M : Type} (fs : ScannerFs M) (isChanged : M → M → Bool)
    (k : String) (stored : M) : Option (QueuedAction M) :=
  match fs.metadata k with
  | .err kind => if kind = .notFound then some (.delete k) else none
  | .ok actual => if isChanged stored actual then some (.update k actual) else none

/-- `FilesystemScanner::new_deletion_and_replacement_actions`: iterate the
cached store and collect the per-entry actions. -/
def newDeletionAndReplacementActions {M : Type} (fs : ScannerFs M)
    (isChanged : M → M → Bool) (st : CachedObjectStorage M) : List (QueuedAction M) :=
  st.entries.filterMap (fun e => deletionActionFor fs isChanged e.1 e.2)

/-- The loop of `FilesystemScanner::get_matching_file_paths` over the root
glob's results: a file entry is pushed; a directory entry is scanned with
the nested pattern `"{path}/**/{object_pattern}"` (skipped with a logged
error when the path is not unicode) and its file results are pushed. -/
def collectMatchingPaths {M : Type} (fs : ScannerFs M) (objectPattern : String) :
    List GlobEntry → Except ReadError (List String)
  | [] => .ok []
  | e :: rest =>
    if e.isFile then
      match collectMatchingPaths fs objectPattern rest with
      | .error err => .error err
      | .ok ps => .ok (e.path :: ps)
    else if e.isUnicode then
      match fs.glob (e.path ++ "/**/" ++ objectPattern) with
      | .error err => .error err
      | .ok nested =>
        match collectMatchingPaths fs objectPattern rest with
        | .error err => .error err
        | .ok ps => .ok ((nested.filter (fun n => n.isFile)).map (fun n => n.path) ++ ps)
    else collectMatchingPaths fs objectPattern rest

/-- `FilesystemScanner::get_matching_file_paths`. -/
def getMatchingFilePaths {M : Type} (fs : ScannerFs M) (sc : FilesystemScanner) :
    Except ReadError (List String) :=
  match fs.glob sc.path with
  | .error err => .error err
  | .ok entries => collectMatchingPaths fs sc.object_pattern entries

/-- `FilesystemScanner::new_insertion_actions`: for each matching path not
already tracked, stat it and emit `Read`; a failed stat (a lost race) skips
the path silently. -/
def newInsertionActions {M : Type} (fs : ScannerFs M) (sc : FilesystemScanner)
    (st : CachedObjectStorage M) : Except ReadError (List (QueuedAction M)) :=
  match getMatchingFilePaths fs sc with
  | .error err => .error err
  | .ok paths =>
    .ok (paths.filterMap (fun p =>
      if containsObject st p then none
      else
        match fs.metadata p with
        | .err _ => none
        | .ok m => some (.read p m)))

/-- `FilesystemScanner::next_scanner_actions`: the deletion/update pass
first (when enabled), then the insertion pass appended to it. -/
def nextScannerActions {M : Type} (fs : ScannerFs M) (sc : FilesystemScanner)
    (isChanged : M → M → Bool) (areDeletionsEnabled : Bool)
    (st : CachedObjectStorage M) : Except ReadError (List (QueuedAction M)) :=
  let del :=
    if areDeletionsEnabled then newDeletionAndReplacementActions fs isChanged st else []
  match newInsertionActions fs sc st with
  | .error err => .error err
  | .ok ins => .ok (del ++ ins)

/-! ### Concrete fixtures used by witnesses and counterexamples -/

/-- The metadata-difference predicate used by the `Nat`-metadata fixtures. -/
def icNeW : Nat → Nat → Bool := fun a b => a != b

/-- Fixture: every metadata lookup fails with a non-not-found I/O error,
and no path matches any glob. -/
def fsIoErrW : ScannerFs Nat := ⟨fun _ => .err (.other 1), fun _ => .ok []⟩

/-- Fixture: a one-entry cached store tracking key `"a"`. -/
def stOneKeyW : CachedObjectStorage Nat := ⟨[("a", 0)]⟩

/-- Fixture: object `"k"` currently has metadata `1`; no glob matches. -/
def fsUpdW : ScannerFs Nat :=
  ⟨fun p => if p = "k" then .ok 1 else .err .notFound, fun _ => .ok []⟩

/-- Fixture: a one-entry cached store tracking key `"k"` with metadata `0`. -/
def stKW : CachedObjectStorage Nat := ⟨[("k", 0)]⟩

/-- Fixture: the tracked object `"old"` is gone and a fresh file `"new"`
matches the root pattern `"pat"`. -/
def fsOldNewW : ScannerFs Nat :=
  ⟨fun p => if p = "new" then .ok 0 else .err .notFound,
    fun p => if p = "pat" then .ok [⟨"new", true, true⟩] else .ok []⟩

/-- Fixture: a one-entry cached store tracking key `"old"`. -/
def stOldW : CachedObjectStorage Nat := ⟨[("old", 5)]⟩

/-- Fixture: the root pattern `"pat"` matches both the plain file `"d/f"`
and the directory `"d"`, and the nested scan of `"d"` with object pattern
`"*"` matches `"d/f"` again. -/
def fsDupW : ScannerFs Nat :=
  ⟨fun p => if p = "d/f" then .ok 0 else .err .notFound,
    fun p =>
      if p = "pat" then .ok [⟨"d/f", true, true⟩, ⟨"d", true, false⟩]
      else if p = "d/**/*" then .ok [⟨"d/f", true, true⟩]
      else .ok []⟩

/-- Fixture: an empty cached store. -/
def stEmptyW : CachedObjectStorage Nat := ⟨[]⟩

/-! ## Helper lemmas: file names -/

theorem strData_append (s t : String) : (s ++ t).data = s.data ++ t.data := by
  cases s; cases t; rfl

theorem str_append_ne_self {s t : String} (ht : t.data ≠ []) : s ++ t ≠ s := by
  intro h
  have hlen := congrArg (fun x => x.data.length) h
  simp only [strData_append, List.length_append] at hlen
  have : t.data.length = 0 := by omega
  exact ht (List.length_eq_zero.mp this)

theorem splitLastDot_eq : ∀ {l b a : List Char},
    splitLastDot l = some (b, a) → l = b ++ '.' :: a := by
  intro l
  induction l with
  | nil => intro b a h; simp [splitLastDot] at h
  | cons c rest ih =>
    intro b a h
    rcases hr : splitLastDot rest with _ | ⟨b', a'⟩
    · simp only [splitLastDot, hr] at h
      by_cases hc : c = '.'
      · rw [if_pos hc] at h
        simp only [Option.some.injEq, Prod.mk.injEq] at h
        obtain ⟨hb, ha⟩ := h
        subst hb ha
        simp [hc]
      · rw [if_neg hc] at h
        exact absurd h (by simp)
    · simp only [splitLastDot, hr, Option.some.injEq, Prod.mk.injEq] at h
      obtain ⟨hb, ha⟩ := h
      subst hb ha
      simp [ih hr]

theorem fileStemExt_cases (f : String) :
    (∃ stem ext, fileStemExt f = (stem, some ext)) ∨ fileStemExt f = (f, none) := by
  unfold fileStemExt
  split
  · right; rfl
  · split
    · right; rfl
    · split
      · right; rfl
      · left; exact ⟨_, _, rfl⟩

theorem fileStemExt_eq_some {f stem ext : String}
    (h : fileStemExt f = (stem, some ext)) : f = stem ++ "." ++ ext := by
  unfold fileStemExt at h
  split at h
  · simp at h
  · split at h
    · simp at h
    · next b a hsplit =>
      split at h
      · simp at h
      · simp only [Prod.mk.injEq, Option.some.injEq] at h
        obtain ⟨h1, h2⟩ := h
        subst h1 h2
        have hd := splitLastDot_eq hsplit
        apply String.ext
        simp [strData_append, hd]

theorem tmpFileName_spec (f : String) :
    (∃ ext, (fileStemExt f).2 = some ext ∧ tmpFileName f = f ++ ".tmp") ∨
      ((fileStemExt f).2 = none ∧ tmpFileName f = f ++ "..tmp") := by
  rcases fileStemExt_cases f with ⟨stem, ext, hse⟩ | hn
  · left
    refine ⟨ext, by rw [hse], ?_⟩
    have hf := fileStemExt_eq_some hse
    unfold tmpFileName
    rw [hse]
    simp only [setExtName]
    rw [if_neg (by simp [String.ext_iff, strData_append]), hse]
    apply String.ext
    simp [strData_append, hf]
  · right
    refine ⟨by rw [hn], ?_⟩
    unfold tmpFileName
    rw [hn]
    simp only [setExtName]
    rw [if_neg (by simp [String.ext_iff]), hn]
    apply String.ext
    simp [strData_append]

theorem tmpFileName_ne_self (f : String) : tmpFileName f ≠ f := by
  rcases tmpFileName_spec f with ⟨ext, _, h⟩ | ⟨_, h⟩ <;> rw [h]
  · exact str_append_ne_self (by simp)
  · exact str_append_ne_self (by simp)

theorem endsWithTmpSuffix_tmpFileName (f : String) :
    endsWithTmpSuffix (tmpFileName f) = true := by
  unfold endsWithTmpSuffix
  rw [List.isSuffixOf_iff_suffix]
  rcases tmpFileName_spec f with ⟨ext, _, h⟩ | ⟨_, h⟩ <;> rw [h, strData_append]
  · exact ⟨f.data, rfl⟩
  · exact ⟨f.data ++ ['.'], by simp⟩

theorem tmpPathOf_concat (dir : List String) (name : String) :
    tmpPathOf (dir ++ [name]) = dir ++ [tmpFileName name] := by
  induction dir with
  | nil => rfl
  | cons c rest ih => simp [tmpPathOf, ih]

/-! ## Helper lemmas: the scanner -/

theorem deletionActionFor_key {M : Type} {fs : ScannerFs M} {ic : M → M → Bool}
    {k : String} {m : M} {a : QueuedAction M}
    (h : deletionActionFor fs ic k m = some a) :
    a.key = k ∧ a.isReadAction = false := by
  unfold deletionActionFor at h
  split at h <;> split at h <;>
    simp_all [QueuedAction.key, QueuedAction.isReadAction] <;>
    simp [← h, QueuedAction.key, QueuedAction.isReadAction]

theorem deletionActionFor_none_of_ioErr {M : Type} {fs : ScannerFs M}
    {ic : M → M → Bool} {k : String} {m : M} {kind : ErrKind}
    (hmeta : fs.metadata k = .err kind) (hk : kind ≠ .notFound) :
    deletionActionFor fs ic k m = none := by
  unfold deletionActionFor
  rw [hmeta]
  simp [hk]

theorem deletionActionFor_none_of_changed {M : Type} {fs : ScannerFs M}
    {ic : M → M → Bool} {k : String} {m cur : M}
    (hcur : fs.metadata k = .ok cur) (hic : ic m cur = false) :
    deletionActionFor fs ic k m = none := by
  unfold deletionActionFor
  rw [hcur]
  simp [hic]

theorem deletionActionFor_eq_delete {M : Type} {fs : ScannerFs M}
    {ic : M → M → Bool} {k k' : String} {m : M}
    (h : deletionActionFor fs ic k m = some (.delete k')) :
    k' = k ∧ fs.metadata k = .err .notFound := by
  unfold deletionActionFor at h
  split at h <;> split at h <;> simp_all

theorem deletionActionFor_eq_update {M : Type} {fs : ScannerFs M}
    {ic : M → M → Bool} {k k' : String} {m cur : M}
    (h : deletionActionFor fs ic k m = some (.update k' cur)) :
    k' = k ∧ fs.metadata k = .ok cur ∧ ic m cur = true := by
  unfold deletionActionFor at h
  split at h <;> split at h <;> simp_all

theorem keys_nodup_eq {M : Type} {l : List (String × M)}
    (h : (l.map Prod.fst).Nodup) {k : String} {m m' : M}
    (h1 : (k, m) ∈ l) (h2 : (k, m') ∈ l) : m = m' := by
  induction l with
  | nil => simp at h1
  | cons e rest ih =>
    simp only [List.map_cons, List.nodup_cons] at h
    obtain ⟨hnot, hrest⟩ := h
    rcases List.mem_cons.mp h1 with he1 | hm1 <;> rcases List.mem_cons.mp h2 with he2 | hm2
    · exact congrArg Prod.snd (he1.trans he2.symm)
    · exact absurd (List.mem_map.mpr ⟨(k, m'), hm2, by rw [← he1]⟩) hnot
    · exact absurd (List.mem_map.mpr ⟨(k, m), hm1, by rw [← he2]⟩) hnot
    · exact ih hrest hm1 hm2

theorem mem_newInsertionActions {M : Type} {fs : ScannerFs M}
    {sc : FilesystemScanner} {st : CachedObjectStorage M}
    {acts : List (QueuedAction M)}
    (h : newInsertionActions fs sc st = .ok acts) :
    ∀ a ∈ acts, ∃ k mm, a = .read k mm ∧ containsObject st k = false ∧
      fs.metadata k = .ok mm := by
  unfold newInsertionActions at h
  split at h
  · exact absurd h (by simp)
  · simp only [Except.ok.injEq] at h
    subst h
    intro a ha
    obtain ⟨p, _, hsome⟩ := List.mem_filterMap.mp ha
    split at hsome
    · simp at hsome
    · next hcont =>
      split at hsome
      · simp at hsome
      · next mm hmeta =>
        simp only [Option.some.injEq] at hsome
        exact ⟨p, mm, hsome.symm, by simpa using hcont, hmeta⟩

theorem nextScannerActions_ok_iff {M : Type} {fs : ScannerFs M}
    {sc : FilesystemScanner} {ic : M → M → Bool} {st : CachedObjectStorage M}
    {batch : List (QueuedAction M)} :
    nextScannerActions fs sc ic true st = .ok batch ↔
      ∃ ins, newInsertionActions fs sc st = .ok ins ∧
        batch = newDeletionAndReplacementActions fs ic st ++ ins := by
  unfold nextScannerActions
  cases h : newInsertionActions fs sc st <;> simp [h, eq_comm]

theorem isReadAction_read {M : Type} (k : String) (m : M) :
    (QueuedAction.read k m).isReadAction = true := rfl

theorem containsObject_eq_false {M : Type} {st : CachedObjectStorage M}
    {k : String} (h : containsObject st k = false) :
    k ∉ st.entries.map Prod.fst := by
  intro hk
  obtain ⟨e, he, hek⟩ := List.mem_map.mp hk
  simp only [containsObject, List.any_eq_true, decide_eq_true_eq, not_exists,
    Bool.not_eq_true, List.any_eq_false] at h
  exact h e he hek

theorem mem_newDeletion_key {M : Type} {fs : ScannerFs M} {ic : M → M → Bool}
    {st : CachedObjectStorage M} {a : QueuedAction M}
    (h : a ∈ newDeletionAndReplacementActions fs ic st) :
    a.isReadAction = false ∧ a.key ∈ st.entries.map Prod.fst := by
  obtain ⟨e, he, hsome⟩ := List.mem_filterMap.mp h
  obtain ⟨hkey, hread⟩ := deletionActionFor_key hsome
  exact ⟨hread, hkey ▸ List.mem_map.mpr ⟨e, he, rfl⟩⟩

theorem del_filter_keyed_nil {M : Type} (fs : ScannerFs M) (ic : M → M → Bool)
    (l : List (String × M)) (k : String) (hk : k ∉ l.map Prod.fst) :
    (l.filterMap (fun e => deletionActionFor fs ic e.1 e.2)).filter
      (fun a => !a.isReadAction && a.key == k) = [] := by
  rw [List.filter_eq_nil_iff]
  intro a ha
  obtain ⟨e, he, hsome⟩ := List.mem_filterMap.mp ha
  have hkey := (deletionActionFor_key hsome).1
  have : a.key ≠ k := by
    rw [hkey]
    intro hek
    exact hk (List.mem_map.mpr ⟨e, he, hek⟩)
  simp [this]

theorem del_filter_keyed_le_one {M : Type} (fs : ScannerFs M) (ic : M → M → Bool)
    (l : List (String × M)) (hnodup : (l.map Prod.fst).Nodup) (k : String) :
    ((l.filterMap (fun e => deletionActionFor fs ic e.1 e.2)).filter
      (fun a => !a.isReadAction && a.key == k)).length ≤ 1 := by
  induction l with
  | nil => simp
  | cons e rest ih =>
    simp only [List.map_cons, List.nodup_cons] at hnodup
    obtain ⟨hnot, hrest⟩ := hnodup
    rw [List.filterMap_cons]
    cases hda : deletionActionFor fs ic e.1 e.2 with
    | none => exact ih hrest
    | some a =>
      rw [List.filter_cons]
      split
      · next hp =>
        have hak : a.key = k := by
          simp only [Bool.and_eq_true, beq_iff_eq] at hp
          exact hp.2
        have hek : e.1 = k := by rw [← (deletionActionFor_key hda).1, hak]
        rw [del_filter_keyed_nil fs ic rest k (hek ▸ hnot)]
        simp
      · exact ih hrest

/-! ## The claims -/

/-- C8 (confirmed): `object_metadata` returns `Ok(None)` when the object
does not currently exist (not-found is not an error), returns the current
metadata when the object exists, and returns an error exactly for I/O
failures other than not-found. -/
theorem c8_object_metadata_spec (M : Type) (fs : ScannerFs M) (p : String) :
    (fs.metadata p = .err .notFound → objectMetadata fs p = .ok none) ∧
      (∀ m, fs.metadata p = .ok m → objectMetadata fs p = .ok (some m)) ∧
      (∀ kind, fs.metadata p = .err kind → kind ≠ .notFound →
        objectMetadata fs p = .error (.ioErr kind)) := by
  refine ⟨fun h => ?_, fun m h => ?_, fun kind h hk => ?_⟩ <;>
    unfold objectMetadata <;> rw [h] <;> simp [*]

/-- C4 (confirmed): the insertion pass never emits a `Read` action for a key
already contained in the cached object store — in this and, the scanner
holding no state of its own, every repeated scan while the key stays in the
store. -/
theorem c4_no_duplicate_insertion (M : Type) (fs : ScannerFs M)
    (sc : FilesystemScanner) (st : CachedObjectStorage M) (k : String) (m : M)
    (hc : containsObject st k = true) (acts : List (QueuedAction M))
    (h : newInsertionActions fs sc st = .ok acts) :
    QueuedAction.read k m ∉ acts := by
  intro hmem
  obtain ⟨k', mm, heq, hcont, _⟩ := mem_newInsertionActions h _ hmem
  injection heq with hk _
  rw [hk, hcont] at hc
  cases hc

/-- C4 witness: with `"k"` tracked and the file `"k"` also matching the
glob, the insertion pass emits nothing — in particular no `Read("k")`. -/
theorem c4_no_duplicate_insertion_witness :
    containsObject stKW "k" = true ∧
      newInsertionActions fsUpdW ⟨"pat", "*"⟩ stKW = .ok [] ∧
      QueuedAction.read "k" (1 : Nat) ∉ ([] : List (QueuedAction Nat)) :=
  ⟨by decide, rfl,
    c4_no_duplicate_insertion Nat fsUpdW ⟨"pat", "*"⟩ stKW "k" 1 (by decide) [] rfl⟩

/-- C5 (confirmed): for an entry `(k, m)` of the cached store, the
deletion/update pass emits `Delete(k)` exactly when the metadata lookup
fails with not-found, emits `Update(k, cur)` exactly when the lookup
succeeds with `cur` and `is_changed(m, cur)` holds, and emits no action for
`k` when the lookup succeeds with unchanged metadata. -/
theorem c5_deletion_update_pass (M : Type) (fs : ScannerFs M)
    (ic : M → M → Bool) (st : CachedObjectStorage M)
    (hnodup : (st.entries.map Prod.fst).Nodup) (k : String) (m : M)
    (hmem : (k, m) ∈ st.entries) :
    (QueuedAction.delete k ∈ newDeletionAndReplacementActions fs ic st ↔
        fs.metadata k = .err .notFound) ∧
      (∀ cur, fs.metadata k = .ok cur →
        (QueuedAction.update k cur ∈ newDeletionAndReplacementActions fs ic st ↔
          ic m cur = true)) ∧
      (∀ cur, fs.metadata k = .ok cur → ic m cur = false →
        ∀ a ∈ newDeletionAndReplacementActions fs ic st, a.key ≠ k) := by
  refine ⟨⟨fun h => ?_, fun h => ?_⟩, fun cur hcur => ⟨fun h => ?_, fun h => ?_⟩,
    fun cur hcur hic a ha hkey => ?_⟩
  · obtain ⟨e, hmem₂, hsome⟩ :=
      List.mem_filterMap.mp (h : _ ∈ newDeletionAndReplacementActions fs ic st)
    obtain ⟨k₂, m₂⟩ := e
    dsimp only at hsome
    obtain ⟨hk, hmeta⟩ := deletionActionFor_eq_delete hsome
    subst hk
    exact hmeta
  · exact List.mem_filterMap.mpr ⟨(k, m), hmem, by
      unfold deletionActionFor
      rw [h]
      simp⟩
  · obtain ⟨e, hmem₂, hsome⟩ :=
      List.mem_filterMap.mp (h : _ ∈ newDeletionAndReplacementActions fs ic st)
    obtain ⟨k₂, m₂⟩ := e
    dsimp only at hsome
    obtain ⟨hk, hmeta, hic2⟩ := deletionActionFor_eq_update hsome
    subst hk
    have hm : m₂ = m := keys_nodup_eq hnodup hmem₂ hmem
    rw [← hm]
    exact hic2
  · exact List.mem_filterMap.mpr ⟨(k, m), hmem, by
      unfold deletionActionFor
      rw [hcur]
      simp [h]⟩
  · obtain ⟨e, hmem₂, hsome⟩ := List.mem_filterMap.mp ha
    obtain ⟨k₂, m₂⟩ := e
    dsimp only at hsome
    have hk₂ : k₂ = k := by rw [← (deletionActionFor_key hsome).1, hkey]
    subst hk₂
    have hm : m₂ = m := keys_nodup_eq hnodup hmem₂ hmem
    rw [hm] at hsome
    rw [deletionActionFor_none_of_changed hcur hic] at hsome
    cases hsome

/-- C5 witness: the pass at a concrete store tracking `("k", 0)` while the
filesystem reports metadata `1` for `"k"`. -/
theorem c5_deletion_update_pass_witness :
    (([("k", (0 : Nat))] : List (String × Nat)).map Prod.fst).Nodup ∧
      ("k", (0 : Nat)) ∈ stKW.entries ∧
      ((QueuedAction.delete "k" ∈ newDeletionAndReplacementActions fsUpdW icNeW stKW ↔
          fsUpdW.metadata "k" = .err .notFound) ∧
        (∀ cur, fsUpdW.metadata "k" = .ok cur →
          (QueuedAction.update "k" cur ∈
              newDeletionAndReplacementActions fsUpdW icNeW stKW ↔
            icNeW 0 cur = true)) ∧
        (∀ cur, fsUpdW.metadata "k" = .ok cur → icNeW 0 cur = false →
          ∀ a ∈ newDeletionAndReplacementActions fsUpdW icNeW stKW, a.key ≠ "k")) :=
  ⟨by decide, by decide,
    c5_deletion_update_pass Nat fsUpdW icNeW stKW (by decide) "k" 0 (by decide)⟩

/-- C2, counterexample: with one cached entry `"a"` whose metadata lookup
fails with an I/O error other than not-found, `next_scanner_actions` does
not return that error: it returns an ok (here empty) batch — the loop body
of `new_deletion_and_replacement_actions` only tests for `NotFound` and
drops every other error. -/
theorem c2_error_not_propagated_counterexample :
    fsIoErrW.metadata "a" = .err (.other 1) ∧
      ErrKind.other 1 ≠ ErrKind.notFound ∧
      nextScannerActions fsIoErrW ⟨"p", "*"⟩ icNeW true stOneKeyW = .ok [] :=
  ⟨rfl, by decide, rfl⟩

/-- C2 (amended): a cached entry whose metadata lookup fails with an I/O
error other than not-found is silently skipped by the deletion/update pass:
no action is emitted for that key and the error is not propagated —
`next_scanner_actions` still returns an ok batch whenever the insertion
pass's enumeration succeeds. -/
theorem c2_deletion_pass_ignores_io_errors (M : Type) (fs : ScannerFs M)
    (ic : M → M → Bool) (st : CachedObjectStorage M) (k : String)
    (kind : ErrKind) (hmeta : fs.metadata k = .err kind)
    (hkind : kind ≠ .notFound) :
    (∀ a ∈ newDeletionAndReplacementActions fs ic st, a.key ≠ k) ∧
      (∀ sc ins, newInsertionActions fs sc st = .ok ins →
        nextScannerActions fs sc ic true st =
          .ok (newDeletionAndReplacementActions fs ic st ++ ins)) := by
  constructor
  · intro a ha hkey
    obtain ⟨e, hmem₂, hsome⟩ := List.mem_filterMap.mp ha
    obtain ⟨k₂, m₂⟩ := e
    dsimp only at hsome
    have hk₂ : k₂ = k := by rw [← (deletionActionFor_key hsome).1, hkey]
    subst hk₂
    rw [deletionActionFor_none_of_ioErr hmeta hkind] at hsome
    cases hsome
  · intro sc ins h
    simp [nextScannerActions, h]

/-- C2 witness: the silent skip at the concrete store tracking `"a"` while
every lookup fails with a non-not-found I/O error. -/
theorem c2_deletion_pass_ignores_io_errors_witness :
    fsIoErrW.metadata "a" = .err (.other 1) ∧
      ErrKind.other 1 ≠ ErrKind.notFound ∧
      ((∀ a ∈ newDeletionAndReplacementActions fsIoErrW icNeW stOneKeyW,
          a.key ≠ "a") ∧
        (∀ sc ins, newInsertionActions fsIoErrW sc stOneKeyW = .ok ins →
          nextScannerActions fsIoErrW sc icNeW true stOneKeyW =
            .ok (newDeletionAndReplacementActions fsIoErrW icNeW stOneKeyW ++ ins))) :=
  ⟨rfl, by decide,
    c2_deletion_pass_ignores_io_errors Nat fsIoErrW icNeW stOneKeyW "a"
      (.other 1) rfl (by decide)⟩

/-- C7 (confirmed): when deletions are enabled, every `Delete`/`Update`
action in a returned batch precedes every `Read` action — the batch is the
deletion/update pass's output followed by the insertion pass's reads. -/
theorem c7_deletions_precede_reads (M : Type) (fs : ScannerFs M)
    (sc : FilesystemScanner) (ic : M → M → Bool) (st : CachedObjectStorage M)
    (batch : List (QueuedAction M))
    (hrun : nextScannerActions fs sc ic true st = .ok batch)
    (i j : Nat) (hi : i < batch.length) (hj : j < batch.length)
    (hread : (batch.get ⟨i, hi⟩).isReadAction = true)
    (hnon : (batch.get ⟨j, hj⟩).isReadAction = false) :
    j < i := by
  obtain ⟨ins, hins, hbatch⟩ := nextScannerActions_ok_iff.mp hrun
  subst hbatch
  have hdelf : ∀ a ∈ newDeletionAndReplacementActions fs ic st,
      a.isReadAction = false := fun a ha => (mem_newDeletion_key ha).1
  have hinsf : ∀ a ∈ ins, a.isReadAction = true := by
    intro a ha
    obtain ⟨k, mm, heq, _, _⟩ := mem_newInsertionActions hins a ha
    rw [heq]
    rfl
  have hjlt : j < (newDeletionAndReplacementActions fs ic st).length := by
    by_contra hge
    push_neg at hge
    have hmem : (newDeletionAndReplacementActions fs ic st ++ ins).get ⟨j, hj⟩ ∈ ins := by
      rw [List.get_eq_getElem, List.getElem_append_right hge]
      exact List.getElem_mem _
    rw [hinsf _ hmem] at hnon
    cases hnon
  have hige : (newDeletionAndReplacementActions fs ic st).length ≤ i := by
    by_contra hlt
    push_neg at hlt
    have hmem : (newDeletionAndReplacementActions fs ic st ++ ins).get ⟨i, hi⟩ ∈
        newDeletionAndReplacementActions fs ic st := by
      rw [List.get_eq_getElem, List.getElem_append_left hlt]
      exact List.getElem_mem _
    rw [hdelf _ hmem] at hread
    cases hread
  omega

/-- C7 witness: the batch `[Delete("old"), Read("new")]` at a concrete
filesystem where the tracked `"old"` is gone and the fresh `"new"` matches;
its `Read` at position 1 follows its `Delete` at position 0. -/
theorem c7_deletions_precede_reads_witness :
    nextScannerActions fsOldNewW ⟨"pat", "*"⟩ icNeW true stOldW =
        .ok [QueuedAction.delete "old", QueuedAction.read "new" 0] ∧
      (0 : Nat) < 1 :=
  ⟨rfl,
    c7_deletions_precede_reads Nat fsOldNewW ⟨"pat", "*"⟩ icNeW stOldW
      [QueuedAction.delete "old", QueuedAction.read "new" 0] rfl 1 0
      (by decide) (by decide) (by decide) (by decide)⟩

/-- C3, counterexample: with an empty cached store and a root pattern whose
results contain both the file `d/f` and the directory `d` (whose nested scan
matches `d/f` again), one call produces TWO `Read` actions for the same key
`d/f` — the claim's "each object key appears in at most one action" fails. -/
theorem c3_duplicate_read_counterexample :
    nextScannerActions fsDupW ⟨"pat", "*"⟩ icNeW true stEmptyW =
        .ok [QueuedAction.read "d/f" 0, QueuedAction.read "d/f" 0] ∧
      (([QueuedAction.read "d/f" (0 : Nat), QueuedAction.read "d/f" 0].filter
          (fun a => a.key == "d/f")).length = 2) :=
  ⟨rfl, by decide⟩

/-- C3 (amended): within one returned batch, `Read` and `Update`/`Delete`
are still mutually exclusive per key (a key that receives a `Read` receives
no `Update` or `Delete` in the same batch), and at most one
`Update`/`Delete` is emitted per key; but the same key may receive several
`Read` actions in one batch when the glob enumeration yields the same path
more than once (a file matched both directly and through a directory's
nested scan). -/
theorem c3_batch_key_exclusivity (M : Type) (fs : ScannerFs M)
    (sc : FilesystemScanner) (ic : M → M → Bool) (st : CachedObjectStorage M)
    (batch : List (QueuedAction M))
    (hnodup : (st.entries.map Prod.fst).Nodup)
    (hrun : nextScannerActions fs sc ic true st = .ok batch) :
    (∀ k m, QueuedAction.read k m ∈ batch →
        (∀ m', QueuedAction.update k m' ∉ batch) ∧
          QueuedAction.delete k ∉ batch) ∧
      (∀ k, (batch.filter (fun a => !a.isReadAction && a.key == k)).length ≤ 1) := by
  obtain ⟨ins, hins, hbatch⟩ := nextScannerActions_ok_iff.mp hrun
  subst hbatch
  constructor
  · intro k m hmem
    have hkabs : k ∉ st.entries.map Prod.fst := by
      rcases List.mem_append.mp hmem with hd | hi
      · have := (mem_newDeletion_key hd).1
        simp [QueuedAction.isReadAction] at this
      · obtain ⟨k', mm, heq, hcont, _⟩ := mem_newInsertionActions hins _ hi
        injection heq with hk hm
        exact hk ▸ containsObject_eq_false hcont
    constructor
    · intro m' hupd
      rcases List.mem_append.mp hupd with hd | hi
      · exact hkabs ((mem_newDeletion_key hd).2)
      · obtain ⟨k', mm, heq, _, _⟩ := mem_newInsertionActions hins _ hi
        cases heq
    · intro hdel
      rcases List.mem_append.mp hdel with hd | hi
      · exact hkabs ((mem_newDeletion_key hd).2)
      · obtain ⟨k', mm, heq, _, _⟩ := mem_newInsertionActions hins _ hi
        cases heq
  · intro k
    rw [List.filter_append, List.length_append]
    have hinsnil : ins.filter (fun a => !a.isReadAction && a.key == k) = [] := by
      rw [List.filter_eq_nil_iff]
      intro a ha
      obtain ⟨k', mm, heq, _, _⟩ := mem_newInsertionActions hins _ ha
      subst heq
      simp [QueuedAction.isReadAction]
    rw [hinsnil]
    simpa [newDeletionAndReplacementActions] using
      del_filter_keyed_le_one fs ic st.entries hnodup k

/-- C3 witness: the amended exclusivity at the concrete batch
`[Delete("old"), Read("new")]`. -/
theorem c3_batch_key_exclusivity_witness :
    (stOldW.entries.map Prod.fst).Nodup ∧
      ((∀ k m,
          QueuedAction.read k m ∈
              [QueuedAction.delete "old", QueuedAction.read "new" (0 : Nat)] →
            (∀ m', QueuedAction.update k m' ∉
                [QueuedAction.delete "old", QueuedAction.read "new" 0]) ∧
              QueuedAction.delete k ∉
                [QueuedAction.delete "old", QueuedAction.read "new" 0]) ∧
        (∀ k, (([QueuedAction.delete "old",
              QueuedAction.read "new" (0 : Nat)]).filter
            (fun a => !a.isReadAction && a.key == k)).length ≤ 1)) :=
  ⟨by decide,
    c3_batch_key_exclusivity Nat fsOldNewW ⟨"pat", "*"⟩ icNeW stOldW
      [QueuedAction.delete "old", QueuedAction.read "new" 0] (by decide) rfl⟩

theorem listKeysRun_sound (root : String) (entries : List DirEntry) :
    ∀ keys, listKeysRun root entries = .ok keys →
      ∀ k ∈ keys, ∃ e ∈ entries, e.isFile = true ∧ ∃ s, e.pathStr = some s ∧
        endsWithTmpSuffix s = false ∧ ∃ rel, stripRootDir root s = some rel ∧
          k = normalizeSep rel := by
  induction entries with
  | nil =>
    intro keys h k hk
    simp only [listKeysRun, Except.ok.injEq] at h
    subst h
    simp at hk
  | cons e rest ih =>
    intro keys h k hk
    unfold listKeysRun at h
    split at h
    · next hfile =>
      split at h
      · next s hs =>
        split at h
        · obtain ⟨e', he', hrest⟩ := ih keys h k hk
          exact ⟨e', List.mem_cons_of_mem _ he', hrest⟩
        · next htmp =>
          split at h
          · cases h
          · next rel hstrip =>
            split at h
            · cases h
            · next ks hrec =>
              injection h with h'
              subst h'
              rcases List.mem_cons.mp hk with hkh | hkt
              · exact ⟨e, List.mem_cons_self _ _, hfile, s, hs,
                  by simpa using htmp, rel, hstrip, hkh⟩
              · obtain ⟨e', he', hrest⟩ := ih ks hrec k hkt
                exact ⟨e', List.mem_cons_of_mem _ he', hrest⟩
      · obtain ⟨e', he', hrest⟩ := ih keys h k hk
        exact ⟨e', List.mem_cons_of_mem _ he', hrest⟩
    · obtain ⟨e', he', hrest⟩ := ih keys h k hk
      exact ⟨e', List.mem_cons_of_mem _ he', hrest⟩

/-- C6 (confirmed): whenever `list_keys` succeeds, every returned key comes
from a committed (non-temporary) file path — no returned key corresponds to
a path bearing the temporary-object suffix `".tmp"` — and every temporary
file name `put_value` creates does bear that suffix, so it is filtered. -/
theorem c6_list_keys_excludes_temporary (root : String)
    (entries : List DirEntry) (keys : List String)
    (h : listKeysRun root entries = .ok keys) :
    (∀ k ∈ keys, ∃ e ∈ entries, e.isFile = true ∧ ∃ s, e.pathStr = some s ∧
        endsWithTmpSuffix s = false ∧ ∃ rel, stripRootDir root s = some rel ∧
          k = normalizeSep rel) ∧
      (∀ f, endsWithTmpSuffix (tmpFileName f) = true) :=
  ⟨listKeysRun_sound root entries keys h, endsWithTmpSuffix_tmpFileName⟩

/-- C6 witness: a concrete enumeration holding a committed key, a live
temporary artifact of `put_value` for a key with an extension, and one for a
key without an extension: only the committed key is listed. -/
theorem c6_list_keys_excludes_temporary_witness :
    listKeysRun "r"
        [⟨some "r/a.txt", true⟩, ⟨some "r/a.txt.tmp", true⟩,
          ⟨some "r/b..tmp", true⟩] = .ok ["a.txt"] ∧
      ((∀ k ∈ ["a.txt"],
          ∃ e ∈ [(⟨some "r/a.txt", true⟩ : DirEntry), ⟨some "r/a.txt.tmp", true⟩,
              ⟨some "r/b..tmp", true⟩],
            e.isFile = true ∧ ∃ s, e.pathStr = some s ∧
              endsWithTmpSuffix s = false ∧
                ∃ rel, stripRootDir "r" s = some rel ∧ k = normalizeSep rel) ∧
        (∀ f, endsWithTmpSuffix (tmpFileName f) = true)) :=
  ⟨rfl,
    c6_list_keys_excludes_temporary "r"
      [⟨some "r/a.txt", true⟩, ⟨some "r/a.txt.tmp", true⟩, ⟨some "r/b..tmp", true⟩]
      ["a.txt"] rfl⟩

/-- C1, counterexample to the claimed temporary-path naming: for the key
`"foo"` the final path `r/foo` has no extension, and the temporary path
computed by `put_value` (`with_extension(".tmp")`) is `r/foo..tmp` — the
stem plus `"." ++ ".tmp"` — not the `r/foo.tmp` the claim names. -/
theorem c1_tmp_naming_counterexample :
    tmpPathOf (keyToPath ["r"] "foo") = ["r", "foo..tmp"] ∧
      tmpPathOf (keyToPath ["r"] "foo") ≠ ["r", "foo.tmp"] := by
  constructor <;> decide

/-- C1 (amended): `put_value(key, value)` first ensures the final path's
parent directory, then writes the full value to a sibling temporary path in
that same directory — never writing to the final path directly — and then
renames the temporary path onto the final path.  The temporary path is
`<final-path>.tmp` (equivalently, the stem plus `.<ext>.tmp`) when the final
path has an extension, and `<final-path>..tmp` — not `<final-path>.tmp` —
otherwise.  Stated for final paths whose last component is an ordinary file
name (not `"."` or `".."`, which Rust's `Path::file_name` would erase). -/
theorem c1_put_value_atomic_commit (root : List String) (key : String)
    (value : List Nat) (dir : List String) (name : String)
    (hsplit : keyToPath root key = dir ++ [name])
    (_h1 : name ≠ ".") (_h2 : name ≠ "..") :
    putValueTrace root key value =
        [FsOp.mkdirs dir, FsOp.writeAll (dir ++ [tmpFileName name]) value,
          FsOp.rename (dir ++ [tmpFileName name]) (dir ++ [name])] ∧
      dir ++ [tmpFileName name] ≠ dir ++ [name] ∧
      (∀ p v, FsOp.writeAll p v ∈ putValueTrace root key value →
        p = dir ++ [tmpFileName name] ∧ v = value) ∧
      (∀ ext, (fileStemExt name).2 = some ext → tmpFileName name = name ++ ".tmp") ∧
      ((fileStemExt name).2 = none → tmpFileName name = name ++ "..tmp") := by
  have htrace : putValueTrace root key value =
      [FsOp.mkdirs dir, FsOp.writeAll (dir ++ [tmpFileName name]) value,
        FsOp.rename (dir ++ [tmpFileName name]) (dir ++ [name])] := by
    simp [putValueTrace, hsplit, tmpPathOf_concat, List.dropLast_concat]
  refine ⟨htrace, ?_, ?_, ?_, ?_⟩
  · intro h
    have := List.append_cancel_left h
    simp only [List.cons.injEq] at this
    exact tmpFileName_ne_self name this.1
  · intro p v hmem
    rw [htrace] at hmem
    simp only [List.mem_cons, List.not_mem_nil, or_false] at hmem
    rcases hmem with h | h | h
    · exact absurd h (by simp)
    · simpa using h
    · exact absurd h (by simp)
  · intro ext hext
    rcases tmpFileName_spec name with ⟨ext', h2, heq⟩ | ⟨h2, _⟩
    · exact heq
    · rw [hext] at h2; exact absurd h2 (by simp)
  · intro hnone
    rcases tmpFileName_spec name with ⟨ext', h2, _⟩ | ⟨_, heq⟩
    · rw [hnone] at h2; exact absurd h2 (by simp)
    · exact heq

/-- C1 witness: the amended commit protocol at the concrete call
`put_value("a/b.txt", [7])` under root `r`. -/
theorem c1_put_value_atomic_commit_witness :
    keyToPath ["r"] "a/b.txt" = ["r", "a"] ++ ["b.txt"] ∧
      (putValueTrace ["r"] "a/b.txt" [7] =
          [FsOp.mkdirs ["r", "a"],
            FsOp.writeAll (["r", "a"] ++ [tmpFileName "b.txt"]) [7],
            FsOp.rename (["r", "a"] ++ [tmpFileName "b.txt"]) (["r", "a"] ++ ["b.txt"])] ∧
        ["r", "a"] ++ [tmpFileName "b.txt"] ≠ ["r", "a"] ++ ["b.txt"] ∧
        (∀ p v, FsOp.writeAll p v ∈ putValueTrace ["r"] "a/b.txt" [7] →
          p = ["r", "a"] ++ [tmpFileName "b.txt"] ∧ v = [7]) ∧
        (∀ ext, (fileStemExt "b.txt").2 = some ext →
          tmpFileName "b.txt" = "b.txt" ++ ".tmp") ∧
        ((fileStemExt "b.txt").2 = none → tmpFileName "b.txt" = "b.txt" ++ "..tmp")) :=
  ⟨by decide,
    c1_put_value_atomic_commit ["r"] "a/b.txt" [7] ["r", "a"] "b.txt" (by decide)
      (by decide) (by decide)⟩

/-- C9 (confirmed): `key_to_path` skips empty key components, so logical
keys that differ only by empty components (such as `"a//b"`, `"/a/b"`,
`"a/b"`) map to the same filesystem path and alias each other in
`get_value`, `put_value` and `remove_key`. -/
theorem c9_key_aliasing (root : List String) (k1 k2 : String)
    (h : keyComponents k1 = keyComponents k2) :
    keyToPath root k1 = keyToPath root k2 ∧
      (∀ readFn, getValueRes readFn root k1 = getValueRes readFn root k2) ∧
      (∀ value, putValueTrace root k1 value = putValueTrace root k2 value) ∧
      removeKeyTrace root k1 = removeKeyTrace root k2 := by
  have hp : keyToPath root k1 = keyToPath root k2 := by
    unfold keyToPath; rw [h]
  exact ⟨hp, fun readFn => by unfold getValueRes; rw [hp],
    fun value => by unfold putValueTrace; rw [hp],
    by unfold removeKeyTrace; rw [hp]⟩

/-- C9 witness: the aliasing of the concrete keys `"a//b"` and `"a/b"`
(and, by the same components, `"/a/b"`). -/
theorem c9_key_aliasing_witness :
    keyComponents "a//b" = keyComponents "a/b" ∧
      (keyToPath ["r"] "a//b" = keyToPath ["r"] "a/b" ∧
        (∀ readFn, getValueRes readFn ["r"] "a//b" = getValueRes readFn ["r"] "a/b") ∧
        (∀ value, putValueTrace ["r"] "a//b" value = putValueTrace ["r"] "a/b" value) ∧
        removeKeyTrace ["r"] "a//b" = removeKeyTrace ["r"] "a/b") :=
  ⟨by decide, c9_key_aliasing ["r"] "a//b" "a/b" (by decide)⟩

/-- C10 (confirmed): `FilesystemKVStorage::new` fails with `PathIsNotUtf8`
for every root path that is not valid UTF-8, before any directory is
created, and a backend value is only ever constructed for a
UTF-8-representable root path. -/
theorem c10_new_requires_utf8 :
    (∀ patternOk ensureDirOk,
        fsNew none patternOk ensureDirOk = (.error .pathIsNotUtf8, [])) ∧
      (∀ rootStr patternOk ensureDirOk st effs,
        fsNew rootStr patternOk ensureDirOk = (.ok st, effs) →
          ∃ s, rootStr = some s ∧ st.root_path = s) := by
  constructor
  · intro _ _; rfl
  · intro rootStr patternOk ensureDirOk st effs h
    cases rootStr with
    | none => simp [fsNew] at h
    | some s =>
      refine ⟨s, rfl, ?_⟩
      unfold fsNew at h
      simp only at h
      split at h
      · split at h
        · simp only [Prod.mk.injEq, Except.ok.injEq] at h
          rw [← h.1]
        · simp at h
      · simp at h

end Pathway
